import Mathlib

/-
  Verification development for the KAD lookup coordinator (src/src/kad.cpp).

  Shallow embedding conventions:
  * `fc::sha1` identifiers and distances are modelled as `Nat`; the C++
    `operator^` on sha1 (big-endian byte-wise xor) is `Nat.xor`, and the
    sha1 `operator<` (big-endian byte compare) is the unsigned order `<`
    on `Nat`.
  * A `std::map<sha1, T>` is modelled as an association list with strictly
    increasing keys (`sortedKeys`); `map.begin()` is the head,
    `--map.end()` is the last element, `map[k] = v` is `minsert`,
    `map.find(k)` is `mfind`, and `map.erase(--map.end())` is `dropLast`.
  * Network calls (`connect_to`, `filter`, `remote_nodes_near`) are an
    `Oracle`; a thrown exception is `none` / `filterOk = false` (the
    worker catches every exception at the bottom of its loop body).
  * Concurrent writes to `m_cur_status` that land while a worker is parked
    inside one of the two blocking calls are an `Interference` record.
-/

namespace Kad

/-- Search status: `idle → searching → \x7bdone, cancelled\x7d` (spec section 3).
    Only `searching` and `done` are mentioned by kad.cpp itself. -/
inductive Status where
  | idle
  | searching
  | done
  | cancelled
  deriving DecidableEq, Repr

/-- Lookup in an association list, as `std::map::find` (none = `end()`). -/
def mfind (l : List (Nat × Nat)) (k : Nat) : Option Nat :=
  match l with
  | [] => none
  | (k1, v1) :: t => if k = k1 then some v1 else mfind t k

/-- `map[k] = v` on a key-sorted association list: insert at the sorted
    position, or overwrite the value at an existing key. -/
def minsert (k v : Nat) : List (Nat × Nat) → List (Nat × Nat)
  | [] => [(k, v)]
  | (k1, v1) :: t =>
    if k < k1 then (k, v) :: (k1, v1) :: t
    else if k = k1 then (k, v) :: t
    else (k1, v1) :: minsert k v t

/-- Strictly increasing keys: the representation invariant of `std::map`. -/
def sortedKeys (l : List (Nat × Nat)) : Prop :=
  List.Pairwise (fun a b => a.1 < b.1) l

instance (l : List (Nat × Nat)) : Decidable (sortedKeys l) :=
  inferInstanceAs (Decidable (List.Pairwise _ l))

/-- kad.cpp lines 79-82: `m_current_results[m_target^rtn] = rtn;` followed by
    `if (size > m_n) erase(--end())`.  (The spec calls this `admit`.) -/
def capIns (n k v : Nat) (res : List (Nat × Nat)) : List (Nat × Nat) :=
  if n < (minsert k v res).length then (minsert k v res).dropLast
  else minsert k v res

def acceptResult (n t : Nat) (res : List (Nat × Nat)) (x : Nat) : List (Nat × Nat) :=
  capIns n (Nat.xor t x) x res

/-- kad.cpp lines 100-104: `limit` is the worst (largest) distance key of
    `m_current_results` when `size() >= m_n && m_n`, otherwise unset. -/
def queryLimit (n : Nat) (res : List (Nat × Nat)) : Option Nat :=
  if n ≤ res.length ∧ n ≠ 0 then res.getLast?.map Prod.fst else none

/-- kad.cpp lines 115-131, body of the merge loop for one returned pair
    `(cid, ep)` (the spec calls this `offer`): skip if `cid` occurs among the
    keys of `m_current_results`; if the result set is not full insert into
    `m_search_queue`; otherwise insert only when `cid` is below the worst
    result key (`(--m_current_results.end())->first > rri->id`).
    The `none` fallback marks the `--end()` access on an empty map, which is
    undefined behaviour in the C++ (see claim C10). -/
def offer (n : Nat) (res q : List (Nat × Nat)) (cid ep : Nat) : List (Nat × Nat) :=
  if (mfind res cid).isSome then q
  else if res.length < n then minsert cid ep q
  else
    match res.getLast? with
    | some (wk, _) => if cid < wk then minsert cid ep q else q
    | none => q

/-- Shared per-search state: `m_search_queue` (id → endpoint),
    `m_current_results` (distance → id), `m_cur_status`. -/
structure SearchState where
  queue : List (Nat × Nat)
  results : List (Nat × Nat)
  status : Status
  deriving DecidableEq, Repr

/-- The collaborator interface consumed by the worker loop.  `none` (or
    `filterOk = false`) models a thrown exception caught at lines 133-135. -/
structure Oracle where
  connect : Nat → Option Nat
  filterOk : Nat → Bool
  remote : Nat → Nat → Nat → Option Nat → Option (List (Nat × Nat))

/-- External writes to `m_cur_status` landing while this worker is parked in
    one of the two blocking calls of the iteration. -/
structure Interference where
  duringConnect : Option Status
  duringRemote : Option Status
  deriving DecidableEq, Repr

/-- No concurrent status writes. -/
def noItf : Interference := ⟨none, none⟩

def applyWrite (s : Status) : Option Status → Status
  | some s1 => s1
  | none => s

/-- Arguments of one `m_node->remote_nodes_near` call (kad.cpp line 113). -/
structure RemoteCall where
  queried : Nat
  qtarget : Nat
  qcount : Nat
  qlimit : Option Nat
  deriving DecidableEq, Repr

/-- Result of one worker-loop iteration: the new shared state, the candidate
    popped from the queue, and the remote query issued (if any). -/
structure StepTrace where
  state : SearchState
  visited : Option (Nat × Nat)
  remoteCall : Option RemoteCall
  deriving DecidableEq, Repr

/-- kad.cpp lines 88-131, the part of the iteration after the accept of
    `rtn` into the results (`res1` is the updated result set, `s2` the status
    right after line 86): a `done` status returns before the remote query;
    otherwise query the visited node for `m_n` neighbours within the live
    `queryLimit` (blocking, may throw) and merge every returned pair via
    `offer` against the live result set. -/
def stepAccepted (n t : Nat) (orc : Oracle) (itf : Interference) (cid ep : Nat)
    (qt res1 : List (Nat × Nat)) (rtn : Nat) (s2 : Status) : StepTrace :=
  if s2 = Status.done then ⟨⟨qt, res1, s2⟩, some (cid, ep), none⟩
  else
    match orc.remote rtn t n (queryLimit n res1) with
    | none =>
      ⟨⟨qt, res1, applyWrite s2 itf.duringRemote⟩, some (cid, ep),
        some ⟨rtn, t, n, queryLimit n res1⟩⟩
    | some rr =>
      ⟨⟨rr.foldl (fun q2 pr => offer n res1 q2 pr.1 pr.2) qt, res1,
          applyWrite s2 itf.duringRemote⟩,
        some (cid, ep), some ⟨rtn, t, n, queryLimit n res1⟩⟩

/-- kad.cpp lines 68-135: the body of one iteration of `search_thread` for
    popped candidate `(cid, ep)`.  Line 69 also computes
    `nid = begin()->first ^ m_target`, which the function never reads; it is
    omitted.  Control flow: pop; connect (blocking, may throw); filter (may
    throw); accept into results; `rtn == target` sets status `done`; then
    `stepAccepted`.  An exception from connect or filter is caught at lines
    133-135: the iteration ends with only the pop (and any concurrent status
    write) applied. -/
def stepVisit (n t : Nat) (orc : Oracle) (itf : Interference) (cid ep : Nat)
    (qt res : List (Nat × Nat)) (stat : Status) : StepTrace :=
  match orc.connect ep with
  | none => ⟨⟨qt, res, applyWrite stat itf.duringConnect⟩, some (cid, ep), none⟩
  | some rtn =>
    if orc.filterOk rtn then
      stepAccepted n t orc itf cid ep qt (acceptResult n t res rtn) rtn
        (if rtn = t then Status.done else applyWrite stat itf.duringConnect)
    else ⟨⟨qt, res, applyWrite stat itf.duringConnect⟩, some (cid, ep), none⟩

/-- One worker-loop iteration with trace. -/
def stepFull (n t : Nat) (orc : Oracle) (itf : Interference) (st : SearchState) : StepTrace :=
  match st.queue with
  | [] => ⟨st, none, none⟩
  | (cid, ep) :: qt => stepVisit n t orc itf cid ep qt st.results st.status

/-- One worker-loop iteration, state only. -/
def step (n t : Nat) (orc : Oracle) (itf : Interference) (st : SearchState) : SearchState :=
  (stepFull n t orc itf st).state

/-- kad.cpp line 67: `while (m_search_queue.size() && m_cur_status == searching)`,
    driven by one oracle/interference pair per iteration. -/
def searchLoop (n t : Nat) : List (Oracle × Interference) → SearchState → SearchState
  | [], st => st
  | oi :: rest, st =>
    if st.queue ≠ [] ∧ st.status = Status.searching then
      searchLoop n t rest (step n t oi.1 oi.2 st)
    else st

/-- kad.cpp lines 29-32: seed `m_search_queue[i->id] = i->ep` from the local
    `find_nodes_near` answer. -/
def seedQueue (nn : List (Nat × Nat)) : List (Nat × Nat) :=
  nn.foldl (fun q p => minsert p.1 p.2 q) []

/-- kad.cpp lines 22-33 (`start`): clear results, status `searching`, seed. -/
def startState (nn : List (Nat × Nat)) : SearchState :=
  ⟨seedQueue nn, [], Status.searching⟩

/-- The worker pop (`m_search_queue.begin()`, kad.cpp line 68): the map
    iterator order makes this the entry with the smallest raw key. -/
def takeNext (q : List (Nat × Nat)) : Option (Nat × Nat) := q.head?

/-- One `task::wait_until(deadline)` at current time `now` for a worker that
    completes at absolute time `c`: returns at the task completion or at the
    deadline, whichever is earlier, and never before `now`. -/
def waitUntil (now deadline c : Nat) : Nat := max now (min c deadline)

/-- kad.cpp lines 47-53, the finite-deadline branch of `wait`: the absolute
    `timeout_time = now + d` is computed once, then every pending worker is
    joined in sequence with `wait_until(timeout_time)`.  Returns the time at
    which `wait` returns, given the workers completion times `cs`. -/
def waitModel (t0 d : Nat) (cs : List Nat) : Nat :=
  cs.foldl (fun now c => waitUntil now (t0 + d) c) t0

/-- Modelled from the spec (section 4.5): the deadline "applied independently
    per worker task in sequence", i.e. every sequential join receives its own
    fresh deadline `d` counted from the moment that join starts.  This is the
    behaviour the spec ascribes to the code; compare with `waitModel`. -/
def waitIndependent (t0 d : Nat) (cs : List Nat) : Nat :=
  cs.foldl (fun now c => waitUntil now (now + d) c) t0

/-! ### Association-list lemmas -/

theorem mem_minsert {k v : Nat} {p : Nat × Nat} {l : List (Nat × Nat)}
    (h : p ∈ minsert k v l) : p = (k, v) ∨ p ∈ l := by
  induction l with
  | nil => simpa [minsert] using h
  | cons a tl ih =>
    obtain ⟨k1, v1⟩ := a
    simp only [minsert] at h
    by_cases h1 : k < k1
    · simp only [if_pos h1] at h
      rcases List.mem_cons.1 h with h | h
      · exact Or.inl h
      · exact Or.inr h
    · simp only [if_neg h1] at h
      by_cases h2 : k = k1
      · simp only [if_pos h2] at h
        rcases List.mem_cons.1 h with h | h
        · exact Or.inl h
        · exact Or.inr (List.mem_cons_of_mem _ h)
      · simp only [if_neg h2] at h
        rcases List.mem_cons.1 h with h | h
        · exact Or.inr (by simp [h])
        · rcases ih h with h | h
          · exact Or.inl h
          · exact Or.inr (List.mem_cons_of_mem _ h)

theorem minsert_self_mem (k v : Nat) (l : List (Nat × Nat)) : (k, v) ∈ minsert k v l := by
  induction l with
  | nil => simp [minsert]
  | cons a tl ih =>
    obtain ⟨k1, v1⟩ := a
    simp only [minsert]
    by_cases h1 : k < k1
    · simp [if_pos h1]
    · by_cases h2 : k = k1
      · simp [if_neg h1, if_pos h2]
      · simp only [if_neg h1, if_neg h2]
        exact List.mem_cons_of_mem _ ih

theorem length_le_minsert (k v : Nat) (l : List (Nat × Nat)) :
    l.length ≤ (minsert k v l).length := by
  induction l with
  | nil => simp [minsert]
  | cons a tl ih =>
    obtain ⟨k1, v1⟩ := a
    simp only [minsert]
    by_cases h1 : k < k1
    · simp [if_pos h1]
    · by_cases h2 : k = k1
      · simp [if_neg h1, if_pos h2]
      · simp only [if_neg h1, if_neg h2, List.length_cons]
        omega

theorem minsert_length_le (k v : Nat) (l : List (Nat × Nat)) :
    (minsert k v l).length ≤ l.length + 1 := by
  induction l with
  | nil => simp [minsert]
  | cons a tl ih =>
    obtain ⟨k1, v1⟩ := a
    simp only [minsert]
    by_cases h1 : k < k1
    · simp [if_pos h1]
    · by_cases h2 : k = k1
      · simp [if_neg h1, if_pos h2]
      · simp only [if_neg h1, if_neg h2, List.length_cons]
        omega

theorem minsert_sorted {k v : Nat} {l : List (Nat × Nat)} (h : sortedKeys l) :
    sortedKeys (minsert k v l) := by
  induction l with
  | nil => simp [minsert, sortedKeys]
  | cons a tl ih =>
    obtain ⟨k1, v1⟩ := a
    rcases (List.pairwise_cons.1 h) with ⟨hhead, htl⟩
    simp only [minsert]
    by_cases h1 : k < k1
    · simp only [if_pos h1, sortedKeys]
      refine List.pairwise_cons.2 ⟨?_, h⟩
      intro b hb
      rcases List.mem_cons.1 hb with hb | hb
      · simp [hb]; exact h1
      · exact lt_trans h1 (hhead b hb)
    · by_cases h2 : k = k1
      · simp only [if_neg h1, if_pos h2, sortedKeys]
        refine List.pairwise_cons.2 ⟨?_, htl⟩
        intro b hb
        simpa [h2] using hhead b hb
      · simp only [if_neg h1, if_neg h2, sortedKeys]
        refine List.pairwise_cons.2 ⟨?_, ih htl⟩
        intro b hb
        rcases mem_minsert hb with hb | hb
        · simp [hb]; omega
        · exact hhead b hb

theorem minsert_mem_eq {k v : Nat} {l : List (Nat × Nat)}
    (hs : sortedKeys l) (hm : (k, v) ∈ l) : minsert k v l = l := by
  induction l with
  | nil => cases hm
  | cons a tl ih =>
    obtain ⟨k1, v1⟩ := a
    rcases (List.pairwise_cons.1 hs) with ⟨hhead, htl⟩
    rcases List.mem_cons.1 hm with hm | hm
    · obtain ⟨hk, hv⟩ := Prod.mk.injEq .. ▸ hm
      subst hk; subst hv
      simp [minsert]
    · have hk1 : k1 < k := by simpa using hhead (k, v) hm
      simp only [minsert, if_neg (by omega : ¬ k < k1), if_neg (by omega : ¬ k = k1)]
      rw [ih htl hm]

theorem minsert_idem (k v : Nat) (l : List (Nat × Nat)) :
    minsert k v (minsert k v l) = minsert k v l := by
  induction l with
  | nil => simp [minsert]
  | cons a tl ih =>
    obtain ⟨k1, v1⟩ := a
    simp only [minsert]
    by_cases h1 : k < k1
    · simp [minsert, if_pos h1, lt_irrefl]
    · by_cases h2 : k = k1
      · simp [minsert, if_neg h1, if_pos h2, lt_irrefl]
      · simp only [if_neg h1, if_neg h2]
        simp only [minsert, if_neg h1, if_neg h2]
        rw [ih]

theorem minsert_append_of_lt {k v : Nat} :
    ∀ {l : List (Nat × Nat)}, (∀ p ∈ l, p.1 < k) → minsert k v l = l ++ [(k, v)]
  | [], _ => rfl
  | (k1, v1) :: tl, h => by
    have hk1 : k1 < k := h (k1, v1) (List.mem_cons_self _ _)
    simp only [minsert, if_neg (by omega : ¬ k < k1), if_neg (by omega : ¬ k = k1)]
    rw [minsert_append_of_lt (fun p hp => h p (List.mem_cons_of_mem _ hp))]
    simp

theorem eq_dropLast_concat :
    ∀ {l : List (Nat × Nat)} {q : Nat × Nat}, l.getLast? = some q → l = l.dropLast ++ [q]
  | [], q, h => by cases h
  | [a], q, h => by
    simp only [List.getLast?_singleton, Option.some.injEq] at h
    simp [h]
  | a :: b :: tl, q, h => by
    rw [List.getLast?_cons_cons] at h
    have := eq_dropLast_concat (l := b :: tl) h
    calc a :: b :: tl = a :: ((b :: tl).dropLast ++ [q]) := by rw [← this]
      _ = (a :: b :: tl).dropLast ++ [q] := by simp [List.dropLast]

theorem getLast_mem {l : List (Nat × Nat)} {q : Nat × Nat} (h : l.getLast? = some q) :
    q ∈ l := by
  rw [eq_dropLast_concat h]; simp

theorem getLast_isSome {l : List (Nat × Nat)} (h : l ≠ []) : ∃ q, l.getLast? = some q := by
  induction l with
  | nil => exact absurd rfl h
  | cons a tl ih =>
    cases tl with
    | nil => exact ⟨a, by simp⟩
    | cons b tl2 =>
      rcases ih (by simp) with ⟨q, hq⟩
      exact ⟨q, by rw [List.getLast?_cons_cons]; exact hq⟩

theorem mem_dropLast {l : List (Nat × Nat)} {p : Nat × Nat} (h : p ∈ l.dropLast) : p ∈ l :=
  (List.dropLast_sublist l).mem h

theorem sorted_dropLast {l : List (Nat × Nat)} (h : sortedKeys l) : sortedKeys l.dropLast :=
  (h.sublist (List.dropLast_sublist l))

theorem sorted_le_getLast {l : List (Nat × Nat)} {q : Nat × Nat}
    (hs : sortedKeys l) (hl : l.getLast? = some q) : ∀ p ∈ l, p.1 ≤ q.1 := by
  intro p hp
  have hdecomp := eq_dropLast_concat hl
  rw [hdecomp] at hp hs
  rcases List.mem_append.1 hp with hp | hp
  · have := (List.pairwise_append.1 hs).2.2 p hp q (by simp)
    omega
  · simp only [List.mem_singleton] at hp
    simp [hp]

/-! ### Result-set (`acceptResult`) lemmas -/

theorem acceptResult_sorted {n t : Nat} {res : List (Nat × Nat)} (x : Nat)
    (hs : sortedKeys res) : sortedKeys (acceptResult n t res x) := by
  unfold acceptResult capIns
  split
  · exact sorted_dropLast (minsert_sorted hs)
  · exact minsert_sorted hs

theorem acceptResult_length_le {n t : Nat} {res : List (Nat × Nat)} (x : Nat)
    (h : res.length ≤ n) : (acceptResult n t res x).length ≤ n := by
  unfold acceptResult capIns
  have h1 := minsert_length_le (Nat.xor t x) x res
  split
  · simp only [List.length_dropLast]; omega
  · omega

theorem acceptResult_length_ge {n t : Nat} {res : List (Nat × Nat)} (x : Nat)
    (h : n ≤ res.length) : n ≤ (acceptResult n t res x).length := by
  unfold acceptResult capIns
  have h1 := length_le_minsert (Nat.xor t x) x res
  split
  · simp only [List.length_dropLast]; omega
  · omega

theorem acceptResult_keys_le {n t w : Nat} {res : List (Nat × Nat)} (x : Nat)
    (hlen : n ≤ res.length) (hw : ∀ p ∈ res, p.1 ≤ w) :
    ∀ p ∈ acceptResult n t res x, p.1 ≤ w := by
  by_cases hk : Nat.xor t x ≤ w
  · intro p hp
    unfold acceptResult capIns at hp
    have hmem : p ∈ minsert (Nat.xor t x) x res := by
      split at hp
      · exact mem_dropLast hp
      · exact hp
    rcases mem_minsert hmem with h | h
    · simp [h, hk]
    · exact hw p h
  · have hlt : ∀ p ∈ res, p.1 < Nat.xor t x := fun p hp => by
      have := hw p hp; omega
    unfold acceptResult capIns
    rw [minsert_append_of_lt hlt]
    have hcond : n < (res ++ [(Nat.xor t x, x)]).length := by simp; omega
    rw [if_pos hcond, List.dropLast_concat]
    exact hw

theorem acceptResult_keyinv {n t : Nat} {res : List (Nat × Nat)} (x : Nat)
    (h : ∀ p ∈ res, p.1 = Nat.xor t p.2) :
    ∀ p ∈ acceptResult n t res x, p.1 = Nat.xor t p.2 := by
  intro p hp
  unfold acceptResult capIns at hp
  have hmem : p ∈ minsert (Nat.xor t x) x res := by
    split at hp
    · exact mem_dropLast hp
    · exact hp
  rcases mem_minsert hmem with hm | hm
  · simp [hm]
  · exact h p hm

/-! ### Candidate-queue (`offer`) lemmas -/

theorem mem_offer {n : Nat} {res q : List (Nat × Nat)} {cid ep : Nat} {p : Nat × Nat}
    (h : p ∈ offer n res q cid ep) : p ∈ q ∨ p = (cid, ep) := by
  unfold offer at h
  split at h
  · exact Or.inl h
  · split at h
    · rcases mem_minsert h with h | h
      · exact Or.inr h
      · exact Or.inl h
    · split at h
      · split at h
        · rcases mem_minsert h with h | h
          · exact Or.inr h
          · exact Or.inl h
        · exact Or.inl h
      · exact Or.inl h

theorem offer_bound {n w : Nat} {res q : List (Nat × Nat)} {cid ep : Nat}
    (hlen : n ≤ res.length) (hw : ∀ p ∈ res, p.1 ≤ w) :
    ∀ p ∈ offer n res q cid ep, p ∈ q ∨ p.1 < w := by
  intro p hp
  unfold offer at hp
  split at hp
  · exact Or.inl hp
  · split at hp
    · omega
    · split at hp
      case _ wk wv heq =>
        split at hp
        case isTrue hcid =>
          have hwk : wk ≤ w := hw (wk, wv) (getLast_mem heq)
          rcases mem_minsert hp with h | h
          · right; simp [h]; omega
          · exact Or.inl h
        case isFalse => exact Or.inl hp
      · exact Or.inl hp

theorem foldl_offer_bound {n w : Nat} {res : List (Nat × Nat)}
    (hlen : n ≤ res.length) (hw : ∀ p ∈ res, p.1 ≤ w) (Q : Nat × Nat → Prop) :
    ∀ (rr q : List (Nat × Nat)), (∀ p ∈ q, Q p ∨ p.1 < w) →
      ∀ p ∈ rr.foldl (fun q2 pr => offer n res q2 pr.1 pr.2) q, Q p ∨ p.1 < w := by
  intro rr
  induction rr with
  | nil => intro q hq p hp; exact hq p hp
  | cons pr rest ih =>
    intro q hq p hp
    simp only [List.foldl_cons] at hp
    refine ih (offer n res q pr.1 pr.2) ?_ p hp
    intro p2 hp2
    rcases offer_bound hlen hw p2 hp2 with h | h
    · exact hq p2 h
    · exact Or.inr h

/-! ### Step- and loop-level invariants -/

theorem stepAccepted_visited (n t : Nat) (orc : Oracle) (itf : Interference) (cid ep : Nat)
    (qt res1 : List (Nat × Nat)) (rtn : Nat) (s2 : Status) :
    (stepAccepted n t orc itf cid ep qt res1 rtn s2).visited = some (cid, ep) := by
  unfold stepAccepted
  split
  · rfl
  · cases orc.remote rtn t n (queryLimit n res1) <;> rfl

theorem stepAccepted_results (n t : Nat) (orc : Oracle) (itf : Interference) (cid ep : Nat)
    (qt res1 : List (Nat × Nat)) (rtn : Nat) (s2 : Status) :
    (stepAccepted n t orc itf cid ep qt res1 rtn s2).state.results = res1 := by
  unfold stepAccepted
  split
  · rfl
  · cases orc.remote rtn t n (queryLimit n res1) <;> rfl

/-- With no interfering write during the remote call, the status at the end
    of the post-accept phase is exactly the status it started with. -/
theorem stepAccepted_status_none (n t : Nat) (orc : Oracle) (w : Option Status) (cid ep : Nat)
    (qt res1 : List (Nat × Nat)) (rtn : Nat) (s2 : Status) :
    (stepAccepted n t orc ⟨w, none⟩ cid ep qt res1 rtn s2).state.status = s2 := by
  unfold stepAccepted
  split
  · rfl
  · cases orc.remote rtn t n (queryLimit n res1) <;> simp [applyWrite]

theorem stepAccepted_merge (n t : Nat) (orc : Oracle) (itf : Interference) (cid ep : Nat)
    (qt res1 : List (Nat × Nat)) (rtn : Nat) (s2 : Status) (h : ¬ s2 = Status.done)
    (rr : List (Nat × Nat)) (hrem : orc.remote rtn t n (queryLimit n res1) = some rr) :
    (stepAccepted n t orc itf cid ep qt res1 rtn s2).state.queue =
      rr.foldl (fun q2 pr => offer n res1 q2 pr.1 pr.2) qt := by
  unfold stepAccepted
  rw [if_neg h, hrem]

/-- Once the status is anything other than `searching`, the worker loop
    performs no further iterations (kad.cpp line 67). -/
theorem searchLoop_stop {n t : Nat} {st : SearchState} (h : ¬ st.status = Status.searching) :
    ∀ os, searchLoop n t os st = st := by
  intro os
  cases os with
  | nil => rfl
  | cons oi rest => simp [searchLoop, h]

theorem stepAccepted_bound {n t w : Nat} (Q : Nat × Nat → Prop) (orc : Oracle)
    (itf : Interference) (cid ep : Nat) (qt res1 : List (Nat × Nat)) (rtn : Nat) (s2 : Status)
    (h1 : n ≤ res1.length) (h2 : ∀ p ∈ res1, p.1 ≤ w) (h3 : ∀ p ∈ qt, Q p ∨ p.1 < w) :
    n ≤ (stepAccepted n t orc itf cid ep qt res1 rtn s2).state.results.length ∧
      (∀ p ∈ (stepAccepted n t orc itf cid ep qt res1 rtn s2).state.results, p.1 ≤ w) ∧
      ∀ p ∈ (stepAccepted n t orc itf cid ep qt res1 rtn s2).state.queue, Q p ∨ p.1 < w := by
  unfold stepAccepted
  split
  · exact ⟨h1, h2, h3⟩
  · split
    · exact ⟨h1, h2, h3⟩
    · exact ⟨h1, h2, foldl_offer_bound h1 h2 Q _ qt h3⟩

theorem step_bound {n t w : Nat} (Q : Nat × Nat → Prop) (orc : Oracle) (itf : Interference)
    (st : SearchState) (h1 : n ≤ st.results.length) (h2 : ∀ p ∈ st.results, p.1 ≤ w)
    (h3 : ∀ p ∈ st.queue, Q p ∨ p.1 < w) :
    n ≤ (step n t orc itf st).results.length ∧
      (∀ p ∈ (step n t orc itf st).results, p.1 ≤ w) ∧
      ∀ p ∈ (step n t orc itf st).queue, Q p ∨ p.1 < w := by
  obtain ⟨qs, res, stat⟩ := st
  cases qs with
  | nil => exact ⟨h1, h2, h3⟩
  | cons c qt =>
    obtain ⟨cid, ep⟩ := c
    simp only at h1 h2 h3
    have h3t : ∀ p ∈ qt, Q p ∨ p.1 < w := fun p hp => h3 p (List.mem_cons_of_mem _ hp)
    simp only [step, stepFull, stepVisit]
    cases orc.connect ep with
    | none => exact ⟨h1, h2, h3t⟩
    | some rtn =>
      by_cases hf : orc.filterOk rtn
      · simp only [if_pos hf]
        exact stepAccepted_bound Q orc itf cid ep qt (acceptResult n t res rtn) rtn _
          (acceptResult_length_ge rtn h1) (acceptResult_keys_le rtn h1 h2) h3t
      · simp only [if_neg hf]
        exact ⟨h1, h2, h3t⟩

theorem searchLoop_bound {n t w : Nat} (Q : Nat × Nat → Prop) :
    ∀ (os : List (Oracle × Interference)) (st : SearchState),
      n ≤ st.results.length → (∀ p ∈ st.results, p.1 ≤ w) →
      (∀ p ∈ st.queue, Q p ∨ p.1 < w) →
      ∀ p ∈ (searchLoop n t os st).queue, Q p ∨ p.1 < w := by
  intro os
  induction os with
  | nil => intro st _ _ h3; simpa [searchLoop] using h3
  | cons oi rest ih =>
    intro st h1 h2 h3
    simp only [searchLoop]
    split
    · obtain ⟨g1, g2, g3⟩ := step_bound Q oi.1 oi.2 st h1 h2 h3
      exact ih _ g1 g2 g3
    · exact h3

/-! ### Claims -/

/-- Claim C1, counterexample.  Target 3, N = 1, result set `[(2, 1)]` (id 1 at
    distance key 2) is full with worst distance 2.  Offering id 0 inserts it
    into the queue although `distance(0, 3) = 3 ≥ 2`: the code compares the
    raw id 0 against the worst distance key, not the distance of the id.
    Offering id 1 also inserts it although id 1 is the identifier already
    present in the result set: the code looks the raw id up among the
    distance keys, not among the stored identifiers. -/
theorem offer_distance_cex :
    offer 1 [(2, 1)] [] 0 7 = [(0, 7)] ∧ Nat.xor 3 0 = 3 ∧ ¬ Nat.xor 3 0 < 2 ∧
      offer 1 [(2, 1)] [] 1 7 = [(1, 7)] ∧ (2, 1) ∈ ([(2, 1)] : List (Nat × Nat)) ∧
      Nat.xor 3 1 = 2 := by decide

/-- Claim C1 (amended): `offer` inserts a discovered pair `(id, endpoint)`
    into the candidate queue only if `id` does not occur among the distance
    keys of the result set and, whenever the result set holds at least N
    entries, only if the raw identifier is strictly below the worst (largest)
    distance key; consequently, once the result set holds at least N entries
    all bounded by `w`, no identifier whose raw value is `≥ w` is ever
    subsequently admitted into the candidate queue for the rest of the
    search. -/
theorem offer_narrowing (n t w : Nat) :
    (∀ (res q : List (Nat × Nat)) (cid ep : Nat),
        (mfind res cid).isSome = true → offer n res q cid ep = q) ∧
      (∀ (res q : List (Nat × Nat)) (cid ep wk wv : Nat),
        ¬ res.length < n → res.getLast? = some (wk, wv) → ¬ cid < wk →
        offer n res q cid ep = q) ∧
      ∀ (os : List (Oracle × Interference)) (st : SearchState),
        n ≤ st.results.length → (∀ p ∈ st.results, p.1 ≤ w) →
        ∀ p ∈ (searchLoop n t os st).queue, p ∈ st.queue ∨ p.1 < w := by
  refine ⟨?_, ?_, ?_⟩
  · intro res q cid ep hm
    simp [offer, hm]
  · intro res q cid ep wk wv hlen hlast hcid
    by_cases hm : (mfind res cid).isSome
    · simp [offer, hm]
    · simp [offer, hm, hlen, hlast, hcid]
  · intro os st h1 h2
    exact searchLoop_bound (· ∈ st.queue) os st h1 h2 (fun p hp => Or.inl hp)

/-- Witness for C1. -/
theorem offer_narrowing_w :
    offer 1 [(2, 1)] [(0, 5)] 2 9 = [(0, 5)] ∧ offer 1 [(2, 1)] [(0, 5)] 5 9 = [(0, 5)] ∧
      ((0, 9) ∈ (⟨[(0, 9)], [(2, 1)], Status.searching⟩ : SearchState).queue ∨ (0 : Nat) < 2) :=
  ⟨(offer_narrowing 1 3 2).1 [(2, 1)] [(0, 5)] 2 9 (by decide),
   (offer_narrowing 1 3 2).2.1 [(2, 1)] [(0, 5)] 5 9 2 1 (by decide) (by decide) (by decide),
   (offer_narrowing 1 3 2).2.2 [] ⟨[(0, 9)], [(2, 1)], Status.searching⟩ (by decide) (by decide)
     (0, 9) (by decide)⟩

/-- Claim C2, counterexample.  Target 3, queue holding ids 1 and 2 in map
    (raw-key) order: the worker pops id 1 (`begin()` of the id-keyed map),
    yet id 2 is the queued candidate closest to the target
    (`distance(2,3) = 1 < 2 = distance(1,3)`). -/
theorem takeNext_distance_cex :
    takeNext [(1, 10), (2, 20)] = some (1, 10) ∧
      (stepFull 1 3 ⟨fun _ => some 1, fun _ => true, fun _ _ _ _ => some []⟩ noItf
        ⟨[(1, 10), (2, 20)], [], Status.searching⟩).visited = some (1, 10) ∧
      (2, 20) ∈ ([(1, 10), (2, 20)] : List (Nat × Nat)) ∧
      Nat.xor 3 2 < Nat.xor 3 1 := by decide

/-- Claim C2 (amended): for every non-empty candidate queue, the worker pop
    (`m_search_queue.begin()`) removes and returns the queued candidate whose
    RAW identifier is smallest among all queued candidates (ascending by
    identifier key, not by distance to the target). -/
theorem takeNext_min_id (n t : Nat) (orc : Oracle) (itf : Interference) (st : SearchState)
    (cid ep : Nat) (qt : List (Nat × Nat)) (hs : sortedKeys st.queue)
    (hq : st.queue = (cid, ep) :: qt) :
    takeNext st.queue = some (cid, ep) ∧
      (stepFull n t orc itf st).visited = some (cid, ep) ∧
      ∀ p ∈ st.queue, cid ≤ p.1 := by
  obtain ⟨qs, res, stat⟩ := st
  simp only at hq hs
  subst hq
  refine ⟨rfl, ?_, ?_⟩
  · simp only [stepFull, stepVisit]
    cases orc.connect ep with
    | none => rfl
    | some rtn =>
      by_cases hf : orc.filterOk rtn
      · simp only [if_pos hf]
        exact stepAccepted_visited n t orc itf cid ep qt (acceptResult n t res rtn) rtn _
      · simp [hf]
  · intro p hp
    rcases List.mem_cons.1 hp with hp | hp
    · simp [hp]
    · have := (List.pairwise_cons.1 hs).1 p hp
      omega

/-- Witness for C2 (amended). -/
theorem takeNext_min_id_w :
    takeNext [(1, 10), (2, 20)] = some (1, 10) ∧
      ((1, 10) ∈ ([(1, 10), (2, 20)] : List (Nat × Nat)) → True) :=
  ⟨(takeNext_min_id 1 3 ⟨fun _ => none, fun _ => true, fun _ _ _ _ => none⟩ noItf
      ⟨[(1, 10), (2, 20)], [], Status.searching⟩ 1 10 [(2, 20)] (by decide) rfl).1,
   fun _ => trivial⟩

/-- Claim C3: after each accept the result set has size at most N, keeps
    strictly increasing distance keys each of which is the XOR distance of
    its stored identifier to the target, and when the insertion makes the
    size exceed N exactly one entry is removed, namely the one with the
    largest distance key. -/
theorem acceptResult_invariants (n t : Nat) (res : List (Nat × Nat)) (x : Nat)
    (hs : sortedKeys res) (hlen : res.length ≤ n) (hk : ∀ p ∈ res, p.1 = Nat.xor t p.2) :
    sortedKeys (acceptResult n t res x) ∧ (acceptResult n t res x).length ≤ n ∧
      (∀ p ∈ acceptResult n t res x, p.1 = Nat.xor t p.2) ∧
      (n < (minsert (Nat.xor t x) x res).length →
        acceptResult n t res x = (minsert (Nat.xor t x) x res).dropLast ∧
        (acceptResult n t res x).length + 1 = (minsert (Nat.xor t x) x res).length ∧
        ∃ q, (minsert (Nat.xor t x) x res).getLast? = some q ∧
          ∀ p ∈ acceptResult n t res x, p.1 ≤ q.1) := by
  refine ⟨acceptResult_sorted x hs, acceptResult_length_le x hlen, acceptResult_keyinv x hk, ?_⟩
  intro hcond
  have hne : minsert (Nat.xor t x) x res ≠ [] := by
    intro h0; rw [h0] at hcond; simp at hcond
  have heq : acceptResult n t res x = (minsert (Nat.xor t x) x res).dropLast := by
    unfold acceptResult capIns; rw [if_pos hcond]
  rcases getLast_isSome hne with ⟨q, hq⟩
  refine ⟨heq, ?_, q, hq, ?_⟩
  · rw [heq, List.length_dropLast]; omega
  · intro p hp
    rw [heq] at hp
    exact sorted_le_getLast (minsert_sorted hs) hq p (mem_dropLast hp)

/-- Witness for C3. -/
theorem acceptResult_invariants_w :
    sortedKeys (acceptResult 1 3 [(2, 1)] 0) ∧ (acceptResult 1 3 [(2, 1)] 0).length ≤ 1 :=
  ⟨(acceptResult_invariants 1 3 [(2, 1)] 0 (by decide) (by decide) (by decide)).1,
   (acceptResult_invariants 1 3 [(2, 1)] 0 (by decide) (by decide) (by decide)).2.1⟩

theorem minsert_zero_cons (v : Nat) : ∀ l : List (Nat × Nat), ∃ tl, minsert 0 v l = (0, v) :: tl
  | [] => ⟨[], rfl⟩
  | (k1, v1) :: t => by
    rcases Nat.eq_zero_or_pos k1 with h | h
    · subst h
      exact ⟨t, by simp [minsert]⟩
    · exact ⟨(k1, v1) :: t, by simp [minsert, h]⟩

/-- Accepting the target itself stores it under distance key 0, and with
    `N ≥ 1` the eviction can never remove the key-0 entry (it is the head of
    the key-sorted map, never `--end()` of a map of size `> N ≥ 1`). -/
theorem mfind_acceptResult_self {n : Nat} (t : Nat) (res : List (Nat × Nat)) (hn : 1 ≤ n) :
    mfind (acceptResult n t res t) 0 = some t := by
  unfold acceptResult capIns
  have hxor : Nat.xor t t = 0 := Nat.xor_self t
  rw [hxor]
  obtain ⟨tl, htl⟩ := minsert_zero_cons t res
  rw [htl]
  cases tl with
  | nil =>
    rw [if_neg (by simp; omega)]
    simp [mfind]
  | cons a tl2 =>
    split
    · simp [List.dropLast, mfind]
    · simp [mfind]

/-- Claim C4, counterexample at N = 0.  Target 3, the visited candidate
    resolves to the target: the status does become `done`, but the accept
    inserts `(0, 3)` into the empty result set and the size-cap eviction
    (`size > m_n = 0`) immediately erases it again, so `results()` does NOT
    contain the target at distance 0. -/
theorem target_found_cex :
    (step 0 3 ⟨fun _ => some 3, fun _ => true, fun _ _ _ _ => some []⟩ ⟨none, none⟩
        ⟨[(9, 4)], [], Status.searching⟩).status = Status.done ∧
      (step 0 3 ⟨fun _ => some 3, fun _ => true, fun _ _ _ _ => some []⟩ ⟨none, none⟩
        ⟨[(9, 4)], [], Status.searching⟩).results = [] := by decide

/-- Claim C4 (amended): for every search with N ≥ 1, if a visited candidate
    resolves (via `connect_to`) to the target identifier and passes the
    filter, then the iteration sets the status to `done` and the result set
    afterwards contains the target identifier keyed at distance 0. -/
theorem target_found_done (n t : Nat) (orc : Oracle) (itf : Interference) (st : SearchState)
    (cid ep : Nat) (qt : List (Nat × Nat)) (hn : 1 ≤ n) (hq : st.queue = (cid, ep) :: qt)
    (hc : orc.connect ep = some t) (hf : orc.filterOk t = true) :
    (step n t orc itf st).status = Status.done ∧
      mfind (step n t orc itf st).results 0 = some t := by
  obtain ⟨qs, res, stat⟩ := st
  simp only at hq
  subst hq
  have h1 : stepFull n t orc itf ⟨(cid, ep) :: qt, res, stat⟩ =
      ⟨⟨qt, acceptResult n t res t, Status.done⟩, some (cid, ep), none⟩ := by
    simp [stepFull, stepVisit, hc, hf, stepAccepted]
  simp only [step, h1]
  exact ⟨trivial, mfind_acceptResult_self t res hn⟩

/-- Witness for C4 (amended). -/
theorem target_found_done_w :
    (step 1 3 ⟨fun _ => some 3, fun _ => true, fun _ _ _ _ => some []⟩ noItf
        ⟨[(9, 4)], [(2, 1)], Status.searching⟩).status = Status.done ∧
      mfind (step 1 3 ⟨fun _ => some 3, fun _ => true, fun _ _ _ _ => some []⟩ noItf
        ⟨[(9, 4)], [(2, 1)], Status.searching⟩).results 0 = some 3 :=
  target_found_done 1 3 ⟨fun _ => some 3, fun _ => true, fun _ _ _ _ => some []⟩ noItf
    ⟨[(9, 4)], [(2, 1)], Status.searching⟩ 9 4 [] (by decide) rfl rfl rfl

/-- Claim C5: per-candidate failures are contained in one iteration.  A
    connect/identify failure leaves the results and the `searching` status
    untouched and only pops the candidate; a remote-neighbour-query failure
    keeps the result already accepted for this candidate in step 4 and keeps
    the `searching` status; in both cases the loop proceeds to the next
    candidate (the loop unfolding holds whenever the queue is non-empty and
    the status is `searching`, irrespective of what the oracle answered). -/
theorem failure_contained (n t : Nat) (orc : Oracle) (st : SearchState) (cid ep : Nat)
    (qt : List (Nat × Nat)) (hq : st.queue = (cid, ep) :: qt)
    (hst : st.status = Status.searching) :
    (orc.connect ep = none →
        step n t orc noItf st = ⟨qt, st.results, Status.searching⟩) ∧
      (∀ rtn, orc.connect ep = some rtn → orc.filterOk rtn = true → rtn ≠ t →
        orc.remote rtn t n (queryLimit n (acceptResult n t st.results rtn)) = none →
        step n t orc noItf st = ⟨qt, acceptResult n t st.results rtn, Status.searching⟩) ∧
      ∀ os, searchLoop n t ((orc, noItf) :: os) st = searchLoop n t os (step n t orc noItf st) := by
  obtain ⟨qs, res, stat⟩ := st
  simp only at hq hst
  subst hq; subst hst
  refine ⟨?_, ?_, ?_⟩
  · intro hc
    simp [step, stepFull, stepVisit, hc, noItf, applyWrite]
  · intro rtn hc hf hnt hrem
    simp only at hrem
    simp [step, stepFull, stepVisit, hc, hf, stepAccepted, hnt, noItf, applyWrite, hrem]
  · intro os
    simp [searchLoop]

/-- Witness for C5. -/
theorem failure_contained_w :
    step 1 3 ⟨fun _ => none, fun _ => true, fun _ _ _ _ => none⟩ noItf
        ⟨[(4, 5)], [(2, 1)], Status.searching⟩ = ⟨[], [(2, 1)], Status.searching⟩ ∧
      step 1 3 ⟨fun _ => some 5, fun _ => true, fun _ _ _ _ => none⟩ noItf
        ⟨[(4, 5)], [], Status.searching⟩ = ⟨[], [(6, 5)], Status.searching⟩ :=
  ⟨(failure_contained 1 3 ⟨fun _ => none, fun _ => true, fun _ _ _ _ => none⟩
      ⟨[(4, 5)], [(2, 1)], Status.searching⟩ 4 5 [] rfl rfl).1 rfl,
   by
     have h := (failure_contained 1 3 ⟨fun _ => some 5, fun _ => true, fun _ _ _ _ => none⟩
       ⟨[(4, 5)], [], Status.searching⟩ 4 5 [] rfl rfl).2.1 5 rfl rfl (by decide) rfl
     rw [h]; decide⟩

/-- Claim C6, counterexample.  `wait` computes `timeout_time = now + d` once
    and passes that same absolute deadline to every sequential
    `wait_until`: with `t0 = 0`, `d = 10` and two workers completing at 5
    and 100, the code returns at time 10, whereas giving each sequential
    join its own full deadline (the behaviour the claim states) would return
    at 15 — and can exceed `t0 + d`, which the code never does. -/
theorem wait_deadline_cex :
    waitModel 0 10 [5, 100] = 10 ∧ waitIndependent 0 10 [5, 100] = 15 ∧
      waitModel 0 10 [5, 100] ≠ waitIndependent 0 10 [5, 100] ∧
      ¬ waitIndependent 0 10 [5, 100] ≤ 0 + 10 := by decide

/-- Claim C6 (amended): for every call to `wait` with a finite deadline, the
    absolute deadline `now + d` is computed once and shared by all sequential
    worker joins (a single aggregate deadline), so `wait` returns no later
    than `d` after it was called, whatever the worker completion times. -/
theorem wait_shared_deadline_bound (t0 d : Nat) (cs : List Nat) :
    waitModel t0 d cs ≤ t0 + d := by
  have aux : ∀ (l : List Nat) (now : Nat), now ≤ t0 + d →
      l.foldl (fun now2 c => waitUntil now2 (t0 + d) c) now ≤ t0 + d := by
    intro l
    induction l with
    | nil => intro now h; simpa using h
    | cons c rest ih =>
      intro now h
      simp only [List.foldl_cons]
      exact ih _ (Nat.max_le.mpr ⟨h, Nat.min_le_right _ _⟩)
  exact aux cs t0 (by omega)

/-- `queryLimit` on a key-sorted result set: it is set exactly when
    `size ≥ N` and `N > 0`, and it then equals the distance key of the worst
    (largest-key) result entry. -/
theorem queryLimit_spec {n : Nat} {res : List (Nat × Nat)} (hs : sortedKeys res) :
    ((queryLimit n res).isSome = true ↔ n ≤ res.length ∧ 0 < n) ∧
      ∀ l, queryLimit n res = some l → ∃ v, (l, v) ∈ res ∧ ∀ p ∈ res, p.1 ≤ l := by
  constructor
  · constructor
    · intro h
      unfold queryLimit at h
      by_cases hg : n ≤ res.length ∧ n ≠ 0
      · exact ⟨hg.1, Nat.pos_of_ne_zero hg.2⟩
      · rw [if_neg hg] at h; simp at h
    · intro hg
      obtain ⟨h1, h2⟩ := hg
      unfold queryLimit
      rw [if_pos ⟨h1, by omega⟩]
      have hne : res ≠ [] := by
        intro h0; rw [h0] at h1; simp at h1; omega
      rcases getLast_isSome hne with ⟨q, hq⟩
      simp [hq]
  · intro l hl
    unfold queryLimit at hl
    split at hl
    · cases hq : res.getLast? with
      | none => rw [hq] at hl; simp at hl
      | some q =>
        rw [hq] at hl
        simp only [Option.map_some', Option.some.injEq] at hl
        refine ⟨q.2, ?_, ?_⟩
        · rw [← hl]
          simpa using getLast_mem hq
        · intro p hp
          have := sorted_le_getLast hs hq p hp
          omega
    · cases hl

theorem stepAccepted_remoteCall (n t : Nat) (orc : Oracle) (itf : Interference) (cid ep : Nat)
    (qt res1 : List (Nat × Nat)) (rtn : Nat) (s2 : Status) (h : ¬ s2 = Status.done) :
    (stepAccepted n t orc itf cid ep qt res1 rtn s2).remoteCall =
      some ⟨rtn, t, n, queryLimit n res1⟩ := by
  unfold stepAccepted
  rw [if_neg h]
  cases orc.remote rtn t n (queryLimit n res1) <;> rfl

/-- Claim C7: for a visited candidate that is accepted (and is not the target
    and no interfering status write happened), the remote query requests
    exactly `m_n` nodes from the resolved node and carries a distance ceiling
    if and only if the live result set (recomputed after this candidate's
    accept) has size at least N with N > 0 — the ceiling then being the
    distance key of the current worst result entry. -/
theorem remote_query_args (n t : Nat) (orc : Oracle) (st : SearchState) (cid ep rtn : Nat)
    (qt : List (Nat × Nat)) (hq : st.queue = (cid, ep) :: qt)
    (hst : st.status = Status.searching) (hc : orc.connect ep = some rtn)
    (hf : orc.filterOk rtn = true) (hnt : rtn ≠ t) (hs : sortedKeys st.results) :
    (stepFull n t orc noItf st).remoteCall =
        some ⟨rtn, t, n, queryLimit n (acceptResult n t st.results rtn)⟩ ∧
      ((queryLimit n (acceptResult n t st.results rtn)).isSome = true ↔
        n ≤ (acceptResult n t st.results rtn).length ∧ 0 < n) ∧
      ∀ l, queryLimit n (acceptResult n t st.results rtn) = some l →
        ∃ v, (l, v) ∈ acceptResult n t st.results rtn ∧
          ∀ p ∈ acceptResult n t st.results rtn, p.1 ≤ l := by
  obtain ⟨qs, res, stat⟩ := st
  simp only at hq hst hs
  subst hq; subst hst
  have hs1 : sortedKeys (acceptResult n t res rtn) := acceptResult_sorted rtn hs
  refine ⟨?_, (queryLimit_spec hs1).1, (queryLimit_spec hs1).2⟩
  have hpath : stepFull n t orc noItf ⟨(cid, ep) :: qt, res, Status.searching⟩ =
      stepAccepted n t orc noItf cid ep qt (acceptResult n t res rtn) rtn Status.searching := by
    simp [stepFull, stepVisit, hc, hf, hnt, applyWrite, noItf]
  rw [hpath]
  exact stepAccepted_remoteCall n t orc noItf cid ep qt _ rtn _ (by simp)

/-- Witness for C7. -/
theorem remote_query_args_w :
    (stepFull 1 3 ⟨fun _ => some 5, fun _ => true, fun _ _ _ _ => some []⟩ noItf
        ⟨[(9, 4)], [], Status.searching⟩).remoteCall =
      some ⟨5, 3, 1, queryLimit 1 (acceptResult 1 3 [] 5)⟩ :=
  (remote_query_args 1 3 ⟨fun _ => some 5, fun _ => true, fun _ _ _ _ => some []⟩
    ⟨[(9, 4)], [], Status.searching⟩ 9 4 5 [] rfl rfl rfl rfl (by decide) (by decide)).1

/-- The guards of one `offer` call depend only on the result set and the
    offered id, so `offer` either leaves any queue unchanged or performs the
    map insert on any queue. -/
theorem offer_shape (n : Nat) (res : List (Nat × Nat)) (cid ep : Nat) :
    (∀ q : List (Nat × Nat), offer n res q cid ep = q) ∨
      ∀ q : List (Nat × Nat), offer n res q cid ep = minsert cid ep q := by
  by_cases hm : (mfind res cid).isSome
  · left; intro q; simp [offer, hm]
  · by_cases hl : res.length < n
    · right; intro q; simp [offer, hm, hl]
    · cases hlast : res.getLast? with
      | none => left; intro q; simp [offer, hm, hl, hlast]
      | some wpair =>
        obtain ⟨wk, wv⟩ := wpair
        by_cases hcid : cid < wk
        · right; intro q; simp [offer, hm, hl, hlast, hcid]
        · left; intro q; simp [offer, hm, hl, hlast, hcid]

/-- Insert-then-cap (the accept of kad.cpp lines 79-82 for one distance key)
    is idempotent on a key-sorted result set within its size cap. -/
theorem capIns_idem {n k v : Nat} {res : List (Nat × Nat)} (hs : sortedKeys res)
    (hlen : res.length ≤ n) : capIns n k v (capIns n k v res) = capIns n k v res := by
  have hrs : sortedKeys (minsert k v res) := minsert_sorted hs
  by_cases hn : n < (minsert k v res).length
  · have h1 : capIns n k v res = (minsert k v res).dropLast := by
      unfold capIns; rw [if_pos hn]
    have hlen1 : (minsert k v res).length = n + 1 := by
      have := minsert_length_le k v res; omega
    rw [h1]
    by_cases hm : (k, v) ∈ (minsert k v res).dropLast
    · have h2 : minsert k v ((minsert k v res).dropLast) = (minsert k v res).dropLast :=
        minsert_mem_eq (sorted_dropLast hrs) hm
      unfold capIns
      rw [h2]
      simp [List.length_dropLast, hlen1]
    · have hne : minsert k v res ≠ [] := by
        intro h0; rw [h0] at hn; simp at hn
      rcases getLast_isSome hne with ⟨q, hq⟩
      have hdec := eq_dropLast_concat hq
      have hqkv : q = (k, v) := by
        have hmem : (k, v) ∈ minsert k v res := minsert_self_mem k v res
        rw [hdec] at hmem
        rcases List.mem_append.1 hmem with h | h
        · exact absurd h hm
        · simpa using (List.mem_singleton.1 h).symm
      have hlt : ∀ p ∈ (minsert k v res).dropLast, p.1 < k := by
        intro p hp
        have hps := hrs
        rw [hdec, hqkv] at hps
        have := (List.pairwise_append.1 hps).2.2 p hp (k, v) (by simp)
        simpa using this
      have h2 : minsert k v ((minsert k v res).dropLast) =
          (minsert k v res).dropLast ++ [(k, v)] := minsert_append_of_lt hlt
      have h3 : (minsert k v res).dropLast ++ [(k, v)] = minsert k v res := by
        conv_rhs => rw [hdec, hqkv]
      unfold capIns
      rw [h2, h3, if_pos hn]
  · have h1 : capIns n k v res = minsert k v res := by
      unfold capIns; rw [if_neg hn]
    have h2 : minsert k v (minsert k v res) = minsert k v res :=
      minsert_mem_eq hrs (minsert_self_mem k v res)
    rw [h1]
    unfold capIns
    rw [h2, if_neg hn]

/-- Claim C8: offering the same `(id, endpoint)` to the candidate queue twice
    in succession (against one unchanged result set) leaves the queue as
    after one offer, and accepting the same identifier into the result set
    twice in succession leaves the result set as after one accept. -/
theorem offer_accept_idempotent (n t : Nat) :
    (∀ (res q : List (Nat × Nat)) (cid ep : Nat),
        offer n res (offer n res q cid ep) cid ep = offer n res q cid ep) ∧
      ∀ (res : List (Nat × Nat)) (x : Nat), sortedKeys res → res.length ≤ n →
        acceptResult n t (acceptResult n t res x) x = acceptResult n t res x := by
  constructor
  · intro res q cid ep
    rcases offer_shape n res cid ep with hsh | hsh
    · rw [hsh, hsh]
    · rw [hsh, hsh, minsert_idem]
  · intro res x hs hlen
    exact capIns_idem hs hlen

/-- Witness for C8. -/
theorem offer_accept_idempotent_w :
    offer 1 [(2, 1)] (offer 1 [(2, 1)] [] 0 7) 0 7 = offer 1 [(2, 1)] [] 0 7 ∧
      acceptResult 1 3 (acceptResult 1 3 [(2, 1)] 0) 0 = acceptResult 1 3 [(2, 1)] 0 :=
  ⟨(offer_accept_idempotent 1 3).1 [(2, 1)] [] 0 7,
   (offer_accept_idempotent 1 3).2 [(2, 1)] 0 (by decide) (by decide)⟩

/-- Claim C9, counterexample.  The status is externally set to `done` while
    this worker is parked inside the blocking `connect_to` (modelled by
    `duringConnect = some done`); when the call returns, the worker does NOT
    check the status before mutating shared state: kad.cpp lines 77-82 run
    first, so the result set is mutated (id 5 accepted at distance key 6)
    within the iteration although the status had already transitioned away
    from `searching` before the blocking call returned.  The status check of
    line 88 only comes after that mutation. -/
theorem status_check_cex :
    (step 2 3 ⟨fun _ => some 5, fun _ => true, fun _ _ _ _ => some []⟩
        ⟨some Status.done, none⟩ ⟨[(1, 7)], [], Status.searching⟩).results = [(6, 5)] ∧
      (⟨[(1, 7)], [], Status.searching⟩ : SearchState).results = [] := by decide

/-- Claim C9 (amended): any status transition away from `searching` landing
    during the blocking connect (`s1`, be it `done` or `cancelled`) is
    observed within the same iteration, but not before mutating: the
    iteration still admits the resolved id into the result set in every
    case.  Only then checks fire: for a `done` transition the post-accept
    check stops the iteration (no remote query, no merge, the queue is left
    at the popped tail); for every other transition (the check at kad.cpp
    line 88 only tests `done`) the remote query is still issued and its
    response still merged into the candidate queue.  In every case the
    resulting status is not `searching`, so no further iteration of the
    worker loop begins. -/
theorem status_observed_within_iteration (n t : Nat) (orc : Oracle) (st : SearchState)
    (cid ep rtn : Nat) (s1 : Status) (qt : List (Nat × Nat)) (hq : st.queue = (cid, ep) :: qt)
    (hc : orc.connect ep = some rtn) (hf : orc.filterOk rtn = true)
    (hs1 : ¬ s1 = Status.searching) :
    (step n t orc ⟨some s1, none⟩ st).results = acceptResult n t st.results rtn ∧
      (s1 = Status.done →
        step n t orc ⟨some s1, none⟩ st = ⟨qt, acceptResult n t st.results rtn, Status.done⟩ ∧
          (stepFull n t orc ⟨some s1, none⟩ st).remoteCall = none) ∧
      (¬ s1 = Status.done → ¬ rtn = t →
        (stepFull n t orc ⟨some s1, none⟩ st).remoteCall =
            some ⟨rtn, t, n, queryLimit n (acceptResult n t st.results rtn)⟩ ∧
          ∀ rr, orc.remote rtn t n (queryLimit n (acceptResult n t st.results rtn)) = some rr →
            (step n t orc ⟨some s1, none⟩ st).queue =
              rr.foldl (fun q2 pr => offer n (acceptResult n t st.results rtn) q2 pr.1 pr.2) qt) ∧
      ¬ (step n t orc ⟨some s1, none⟩ st).status = Status.searching ∧
      ∀ os, searchLoop n t os (step n t orc ⟨some s1, none⟩ st) =
        step n t orc ⟨some s1, none⟩ st := by
  obtain ⟨qs, res, stat⟩ := st
  simp only at hq
  subst hq
  have hpath : stepFull n t orc ⟨some s1, none⟩ ⟨(cid, ep) :: qt, res, stat⟩ =
      stepAccepted n t orc ⟨some s1, none⟩ cid ep qt (acceptResult n t res rtn) rtn
        (if rtn = t then Status.done else s1) := by
    simp [stepFull, stepVisit, hc, hf, applyWrite]
  have hstat : (step n t orc ⟨some s1, none⟩ ⟨(cid, ep) :: qt, res, stat⟩).status =
      (if rtn = t then Status.done else s1) := by
    simp only [step, hpath]
    exact stepAccepted_status_none n t orc (some s1) cid ep qt _ rtn _
  have hns : ¬ (step n t orc ⟨some s1, none⟩ ⟨(cid, ep) :: qt, res, stat⟩).status =
      Status.searching := by
    rw [hstat]
    by_cases hrt : rtn = t
    · simp [hrt]
    · simp [hrt, hs1]
  refine ⟨?_, ?_, ?_, hns, searchLoop_stop hns⟩
  · simp only [step, hpath]
    exact stepAccepted_results n t orc ⟨some s1, none⟩ cid ep qt _ rtn _
  · intro hdone
    subst hdone
    rw [ite_self] at hpath
    constructor
    · simp only [step, hpath]
      simp [stepAccepted]
    · rw [hpath]
      simp [stepAccepted]
  · intro hnd hnt
    rw [if_neg hnt] at hpath
    constructor
    · rw [hpath]
      exact stepAccepted_remoteCall n t orc ⟨some s1, none⟩ cid ep qt _ rtn s1 hnd
    · intro rr hrem
      simp only [step, hpath]
      exact stepAccepted_merge n t orc ⟨some s1, none⟩ cid ep qt _ rtn s1 hnd rr hrem

/-- Witness for C9 (amended), exercising the `cancelled` transition: the
    accept still mutates the result set and the remote query is still
    issued within the in-flight iteration. -/
theorem status_observed_within_iteration_w :
    (step 2 3 ⟨fun _ => some 5, fun _ => true, fun _ _ _ _ => some []⟩
        ⟨some Status.cancelled, none⟩ ⟨[(1, 7)], [], Status.searching⟩).results =
      acceptResult 2 3 [] 5 ∧
      (stepFull 2 3 ⟨fun _ => some 5, fun _ => true, fun _ _ _ _ => some []⟩
        ⟨some Status.cancelled, none⟩ ⟨[(1, 7)], [], Status.searching⟩).remoteCall =
      some ⟨5, 3, 2, queryLimit 2 (acceptResult 2 3 [] 5)⟩ :=
  ⟨(status_observed_within_iteration 2 3 ⟨fun _ => some 5, fun _ => true, fun _ _ _ _ => some []⟩
      ⟨[(1, 7)], [], Status.searching⟩ 1 7 5 Status.cancelled [] rfl rfl rfl (by decide)).1,
   ((status_observed_within_iteration 2 3 ⟨fun _ => some 5, fun _ => true, fun _ _ _ _ => some []⟩
      ⟨[(1, 7)], [], Status.searching⟩ 1 7 5 Status.cancelled [] rfl rfl rfl
      (by decide)).2.2.1 (by decide) (by decide)).1⟩

/-- Claim C10: the `--end()` accesses on the result set are well-defined for
    N ≥ 1: in the limit computation the guard `size ≥ N ∧ N ≠ 0` forces a
    non-empty result set, and in the full-result-set merge branch
    (`¬ size < N`) N ≥ 1 forces a non-empty result set, so `getLast?` is
    defined in both places; with N = 0 every result set built by accepts
    from the empty start state stays empty, so when the merge branch is
    reached there the `--end()` access hits an empty map (the C++ undefined
    behaviour marked by the `none` fallback of `offer`). -/
theorem worst_access_safe (t : Nat) :
    (∀ (n : Nat) (res : List (Nat × Nat)), 1 ≤ n → ¬ res.length < n →
        res.getLast?.isSome = true) ∧
      (∀ (n : Nat) (res : List (Nat × Nat)), n ≤ res.length → n ≠ 0 →
        (queryLimit n res).isSome = true) ∧
      ∀ xs : List Nat, xs.foldl (fun r x => acceptResult 0 t r x) [] = [] := by
  refine ⟨?_, ?_, ?_⟩
  · intro n res hn hlen
    have hne : res ≠ [] := by
      intro h0; rw [h0] at hlen; simp at hlen; omega
    rcases getLast_isSome hne with ⟨q, hq⟩
    simp [hq]
  · intro n res h1 h2
    unfold queryLimit
    rw [if_pos ⟨h1, h2⟩]
    have hne : res ≠ [] := by
      intro h0; rw [h0] at h1; simp at h1; omega
    rcases getLast_isSome hne with ⟨q, hq⟩
    simp [hq]
  · intro xs
    have hstep : ∀ x : Nat, acceptResult 0 t [] x = [] := by
      intro x
      simp [acceptResult, capIns, minsert, List.dropLast]
    induction xs with
    | nil => rfl
    | cons x rest ih =>
      simp only [List.foldl_cons, hstep]
      exact ih

/-- Witness for C10. -/
theorem worst_access_safe_w :
    ([(2, 3)] : List (Nat × Nat)).getLast?.isSome = true ∧
      (queryLimit 1 [(2, 3)]).isSome = true ∧
      [1, 2].foldl (fun r x => acceptResult 0 0 r x) [] = [] :=
  ⟨(worst_access_safe 0).1 1 [(2, 3)] (by decide) (by decide),
   (worst_access_safe 0).2.1 1 [(2, 3)] (by decide) (by decide),
   (worst_access_safe 0).2.2 [1, 2]⟩

end Kad
